import Mathlib

/-!
Shallow embedding of `dimod/reference/samplers/exact_solver.py`: the exhaustive
enumeration samplers `ExactSolver`, `ExactDQMSolver` and `ExactCQMSolver`
together with the helpers `_graycode`, `_all_cases_dqm`, `_all_cases_cqm` and
`_iterator_by_vartype`, and proofs of the enumeration/feasibility properties
stated in the design document.

Numbers: sample matrices hold small integers (numpy `int8`/`float64` holding
integral values exactly), modelled as `ℤ`; energies, violations and tolerances
are modelled as `ℚ` (exact arithmetic standing for the float computations).
Python exceptions are modelled with `Except String` / `Option`.
-/

namespace DimodExact

/-- All choice tuples over a list of domains, first domain slowest: the
enumeration order of `itertools.product(*domains)`. -/
def cartProd {α : Type} : List (List α) → List (List α)
  | [] => [[]]
  | l :: ls => l.flatMap (fun a => (cartProd ls).map (fun t => a :: t))

theorem sum_map_const {α : Type} (l : List α) (c : ℕ) :
    (l.map (fun _ => c)).sum = l.length * c := by
  induction l with
  | nil => simp
  | cons a l ih => simp [ih, Nat.succ_mul, Nat.add_comm]

theorem length_cartProd {α : Type} : ∀ ls : List (List α),
    (cartProd ls).length = (ls.map List.length).prod
  | [] => rfl
  | l :: ls => by
    simp only [cartProd, List.flatMap_def, List.length_flatten, List.map_map,
      List.map_cons, List.prod_cons]
    have h : (List.length ∘ fun a => (cartProd ls).map (fun t => a :: t))
        = fun _ : α => (cartProd ls).length := by
      funext a; simp
    rw [h, sum_map_const, length_cartProd ls]

theorem mem_cartProd {α : Type} (ls : List (List α)) (t : List α) :
    t ∈ cartProd ls ↔ List.Forall₂ (· ∈ ·) t ls := by
  induction ls generalizing t with
  | nil =>
    simp [cartProd, List.forall₂_nil_right_iff]
  | cons l ls ih =>
    simp only [cartProd, List.mem_flatMap, List.mem_map]
    constructor
    · rintro ⟨a, ha, t', ht', rfl⟩
      exact List.Forall₂.cons ha ((ih t').mp ht')
    · intro h
      rcases List.forall₂_cons_right_iff.mp h with ⟨a, t', ha, ht', rfl⟩
      exact ⟨a, ha, t', (ih t').mpr ht', rfl⟩

theorem length_of_mem_cartProd {α : Type} {ls : List (List α)} {t : List α}
    (h : t ∈ cartProd ls) : t.length = ls.length :=
  ((mem_cartProd ls t).mp h).length_eq

theorem nodup_cartProd {α : Type} : ∀ ls : List (List α),
    (∀ l ∈ ls, l.Nodup) → (cartProd ls).Nodup
  | [], _ => by simp [cartProd]
  | l :: ls, h => by
    simp only [cartProd]
    rw [List.nodup_flatMap]
    constructor
    · intro a _
      exact (nodup_cartProd ls (fun x hx => h x (List.mem_cons_of_mem l hx))).map
        (fun t t' htt => by injection htt)
    · have hl : l.Nodup := h l (List.mem_cons_self l ls)
      refine hl.imp ?_
      intro a b hab t hta htb
      rcases List.mem_map.mp hta with ⟨t1, _, rfl⟩
      rcases List.mem_map.mp htb with ⟨t2, _, heq⟩
      injection heq with h1 _
      exact hab h1.symm

/-- Model of `np.array(np.meshgrid(*cases)).T.reshape(-1, len(cases))`.

With numpy's default `xy` indexing, `np.meshgrid` swaps the first two axes
(output shape `(k₂, k₁, k₃, …)`), so after stacking, transposing and reshaping
the flattened row index runs slowest over the last domain down to the third,
then the first, then (fastest) the second; each row carries the chosen values
in the original domain order.  (For zero or one domain no axes are swapped.) -/
def meshRows {α : Type} : List (List α) → List (List α)
  | [] => [[]]
  | [l] => cartProd [l]
  | l0 :: l1 :: rest =>
    (cartProd (rest.reverse ++ [l0, l1])).map
      (fun d => d.drop rest.length ++ (d.take rest.length).reverse)

theorem length_meshRows {α : Type} : ∀ ls : List (List α),
    (meshRows ls).length = (ls.map List.length).prod
  | [] => rfl
  | [l] => by simp [meshRows, length_cartProd]
  | l0 :: l1 :: rest => by
    simp only [meshRows, List.length_map, length_cartProd]
    rw [List.map_append, List.prod_append, List.map_reverse, List.prod_reverse]
    simp only [List.map_cons, List.map_nil, List.prod_cons, List.prod_nil]
    ring

theorem mem_meshRows {α : Type} (ls : List (List α)) (row : List α) :
    row ∈ meshRows ls ↔ List.Forall₂ (· ∈ ·) row ls := by
  match ls with
  | [] => simp [meshRows, List.forall₂_nil_right_iff]
  | [l] => simpa [meshRows] using mem_cartProd [l] row
  | l0 :: l1 :: rest =>
    constructor
    · intro hr
      simp only [meshRows, List.mem_map] at hr
      obtain ⟨d, hd, rfl⟩ := hr
      have hf := (mem_cartProd _ d).mp hd
      have hA := List.forall₂_take_append d rest.reverse [l0, l1] hf
      have hB := List.forall₂_drop_append d rest.reverse [l0, l1] hf
      rw [List.length_reverse] at hA hB
      rcases List.forall₂_cons_right_iff.mp hB with ⟨a0, t, ha0, ht, hdrop⟩
      rcases List.forall₂_cons_right_iff.mp ht with ⟨a1, t2, ha1, ht2, rfl⟩
      rw [List.forall₂_nil_right_iff.mp ht2] at hdrop
      rw [hdrop]
      refine List.Forall₂.cons ha0 (List.Forall₂.cons ha1 ?_)
      have h2 := List.forall₂_reverse_iff.mpr hA
      rwa [List.reverse_reverse] at h2
    · intro hf
      rcases List.forall₂_cons_right_iff.mp hf with ⟨a0, t, ha0, ht, rfl⟩
      rcases List.forall₂_cons_right_iff.mp ht with ⟨a1, t2, ha1, ht2, rfl⟩
      simp only [meshRows, List.mem_map]
      refine ⟨t2.reverse ++ [a0, a1], ?_, ?_⟩
      · refine (mem_cartProd _ _).mpr (List.rel_append ?_ ?_)
        · exact List.forall₂_reverse_iff.mpr (by simpa using ht2)
        · exact List.Forall₂.cons ha0 (List.Forall₂.cons ha1 List.Forall₂.nil)
      · have hlen : t2.reverse.length = rest.length := by
          rw [List.length_reverse]; exact ht2.length_eq
        rw [List.drop_left' hlen, List.take_left' hlen, List.reverse_reverse]
        rfl

theorem nodup_meshRows {α : Type} : ∀ ls : List (List α),
    (∀ l ∈ ls, l.Nodup) → (meshRows ls).Nodup
  | [], _ => by simp [meshRows]
  | [l], h => by simpa [meshRows] using nodup_cartProd [l] h
  | l0 :: l1 :: rest, h => by
    simp only [meshRows]
    have hR : ∀ l ∈ rest.reverse ++ [l0, l1], l.Nodup := by
      intro l hl
      rcases List.mem_append.mp hl with hl | hl
      · exact h l (List.mem_cons_of_mem _ (List.mem_cons_of_mem _
          (List.mem_reverse.mp hl)))
      · rcases hl with _ | ⟨_, hl⟩
        · exact h l0 (List.mem_cons_self _ _)
        · rcases hl with _ | ⟨_, hl⟩
          · exact h l1 (List.mem_cons_of_mem _ (List.mem_cons_self _ _))
          · cases hl
    refine (nodup_cartProd _ hR).map_on ?_
    intro d hd d' hd' hdd
    have hlen : d.length = rest.length + 2 := by
      have := length_of_mem_cartProd hd
      simpa [Nat.add_comm] using this
    have hlen' : d'.length = rest.length + 2 := by
      have := length_of_mem_cartProd hd'
      simpa [Nat.add_comm] using this
    have hdroplen : (d.drop rest.length).length = (d'.drop rest.length).length := by
      simp [hlen, hlen']
    have h1 : d.drop rest.length = d'.drop rest.length := by
      have := congrArg (List.take (d.drop rest.length).length) hdd
      rwa [List.take_left, hdroplen, List.take_left] at this
    have h2 : (d.take rest.length).reverse = (d'.take rest.length).reverse := by
      have := congrArg (List.drop (d.drop rest.length).length) hdd
      rwa [List.drop_left, hdroplen, List.drop_left] at this
    have h3 : d.take rest.length = d'.take rest.length :=
      List.reverse_injective h2
    calc d = d.take rest.length ++ d.drop rest.length := (List.take_append_drop _ _).symm
      _ = d'.take rest.length ++ d'.drop rest.length := by rw [h1, h3]
      _ = d' := List.take_append_drop _ _

/-- Helper for `lsb`, structurally recursive on a fuel argument (so that it
evaluates by kernel reduction); `lsbFuel f n` is the least-set-bit index of
`n` whenever `n ≤ f`. -/
def lsbFuel : ℕ → ℕ → ℕ
  | 0, _ => 0
  | f + 1, n => if n % 2 = 1 ∨ n = 0 then 0 else lsbFuel f (n / 2) + 1

/-- Index of the least significant set bit: the Python source computes it as
`(i & -i).bit_length() - 1`, meaningful for `i ≥ 1` (we give `lsb 0 = 0`, an
argument the loop never produces). -/
def lsb (n : ℕ) : ℕ := lsbFuel n n

theorem lsbFuel_congr : ∀ f f' n : ℕ, n ≤ f → n ≤ f' → lsbFuel f n = lsbFuel f' n := by
  intro f
  induction f with
  | zero =>
    intro f' n hf hf'
    obtain rfl : n = 0 := by omega
    cases f' with
    | zero => rfl
    | succ g => simp [lsbFuel]
  | succ f ih =>
    intro f' n hf hf'
    cases f' with
    | zero =>
      obtain rfl : n = 0 := by omega
      simp [lsbFuel]
    | succ g =>
      by_cases h : n % 2 = 1 ∨ n = 0
      · simp [lsbFuel, h]
      · rw [lsbFuel, lsbFuel, if_neg h, if_neg h,
          ih g (n / 2) (by omega) (by omega)]

theorem lsb_odd {n : ℕ} (h : n % 2 = 1) : lsb n = 0 := by
  obtain ⟨m, rfl⟩ : ∃ m, n = m + 1 := ⟨n - 1, by omega⟩
  rw [lsb, lsbFuel, if_pos (Or.inl h)]

theorem lsb_even {n : ℕ} (h0 : n ≠ 0) (h : n % 2 = 0) : lsb n = lsb (n / 2) + 1 := by
  obtain ⟨m, rfl⟩ : ∃ m, n = m + 1 := ⟨n - 1, by omega⟩
  rw [lsb, lsbFuel, if_neg (by omega), lsb,
    lsbFuel_congr m ((m + 1) / 2) ((m + 1) / 2) (by omega) (by omega)]

theorem two_pow_lsb_le {n : ℕ} (h : n ≠ 0) : 2 ^ lsb n ≤ n := by
  induction n using Nat.strong_induction_on with
  | _ n ih =>
    by_cases h1 : n % 2 = 1
    · rw [lsb_odd h1]
      simpa using Nat.pos_of_ne_zero h
    · have h2 : n % 2 = 0 := by omega
      rw [lsb_even h h2, pow_succ]
      have hh : n / 2 ≠ 0 := by omega
      have hrec := ih (n / 2) (by omega) hh
      omega

theorem testBit_two_mul_add_zero {x : ℕ} (hx : x < 2) (a : ℕ) :
    (2 * a + x).testBit 0 = decide (x = 1) := by
  rw [Nat.testBit_zero, show (2 * a + x) % 2 = x by omega]

theorem testBit_two_mul_add_succ {x : ℕ} (hx : x < 2) (a j : ℕ) :
    (2 * a + x).testBit (j + 1) = a.testBit j := by
  rw [Nat.testBit_add_one, show (2 * a + x) / 2 = a by omega]

theorem two_mul_add_xor {x y : ℕ} (hx : x < 2) (hy : y < 2) (a b : ℕ) :
    (2 * a + x) ^^^ (2 * b + y) = 2 * (a ^^^ b) + (x ^^^ y) := by
  have hxy : x ^^^ y < 2 := by
    interval_cases x <;> interval_cases y <;> decide
  apply Nat.eq_of_testBit_eq
  intro i
  rw [Nat.testBit_xor]
  cases i with
  | zero =>
    rw [testBit_two_mul_add_zero hx, testBit_two_mul_add_zero hy,
      testBit_two_mul_add_zero hxy]
    interval_cases x <;> interval_cases y <;> decide
  | succ j =>
    rw [testBit_two_mul_add_succ hx, testBit_two_mul_add_succ hy,
      testBit_two_mul_add_succ hxy, Nat.testBit_xor]

theorem xor_div_two (a b : ℕ) : (a ^^^ b) / 2 = a / 2 ^^^ b / 2 := by
  apply Nat.eq_of_testBit_eq
  intro i
  simp [Nat.testBit_div_two, Nat.testBit_xor]

theorem bne_decide_lt_succ (t j : ℕ) :
    (decide (j < t + 1) != decide (j < t)) = decide (t = j) := by
  by_cases h1 : j < t
  · rw [decide_eq_true (Nat.lt_succ_of_lt h1), decide_eq_true h1,
      decide_eq_false (by omega : ¬ t = j)]
    rfl
  · by_cases h2 : t = j
    · subst h2
      rw [decide_eq_true (Nat.lt_succ_self t), decide_eq_false h1,
        decide_eq_true rfl]
      rfl
    · rw [decide_eq_false (by omega : ¬ j < t + 1), decide_eq_false h1,
        decide_eq_false h2]
      rfl

/-- `(i+1) XOR i` is the block of ones up to and including the lowest set bit
of `i+1`. -/
theorem succ_xor_self (i : ℕ) : (i + 1) ^^^ i = 2 ^ (lsb (i + 1) + 1) - 1 := by
  induction i using Nat.strong_induction_on with
  | _ i ih =>
    by_cases hodd : i % 2 = 1
    · obtain ⟨k, rfl⟩ : ∃ k, i = 2 * k + 1 := ⟨i / 2, by omega⟩
      have h1 : 2 * k + 1 + 1 = 2 * (k + 1) + 0 := by ring
      rw [h1, two_mul_add_xor (by omega) (by omega)]
      have ihk := ih k (by omega)
      have hl : lsb (2 * (k + 1) + 0) = lsb (k + 1) + 1 := by
        rw [Nat.add_zero, lsb_even (by omega) (by omega),
          show 2 * (k + 1) / 2 = k + 1 by omega]
      rw [hl, ihk, show (0 : ℕ) ^^^ 1 = 1 from rfl]
      have hp : (1 : ℕ) ≤ 2 ^ (lsb (k + 1) + 1) := Nat.one_le_two_pow
      rw [pow_succ]
      omega
    · obtain ⟨k, rfl⟩ : ∃ k, i = 2 * k + 0 := ⟨i / 2, by omega⟩
      rw [show 2 * k + 0 + 1 = 2 * k + 1 from rfl,
        two_mul_add_xor (by omega) (by omega),
        show (1 : ℕ) ^^^ 0 = 1 from rfl, Nat.xor_self,
        lsb_odd (by omega)]
      decide

/-- The reflected-Gray-code value: row `i` of `_graycode` holds the bits of
`grayVal i`. -/
def grayVal (i : ℕ) : ℕ := i ^^^ (i / 2)

theorem grayVal_succ_xor (i : ℕ) :
    grayVal (i + 1) ^^^ grayVal i = 2 ^ lsb (i + 1) := by
  have rearrange : ∀ a b c d : ℕ, (a ^^^ b) ^^^ (c ^^^ d) = (a ^^^ c) ^^^ (b ^^^ d) := by
    intro a b c d
    rw [Nat.xor_assoc, ← Nat.xor_assoc b c d, Nat.xor_comm b c,
      Nat.xor_assoc c b d, ← Nat.xor_assoc]
  rw [grayVal, grayVal, rearrange, ← xor_div_two, succ_xor_self]
  have hdiv : (2 ^ (lsb (i + 1) + 1) - 1) / 2 = 2 ^ lsb (i + 1) - 1 := by
    rw [pow_succ]; omega
  rw [hdiv]
  apply Nat.eq_of_testBit_eq
  intro j
  simp only [Nat.testBit_xor, Nat.testBit_two_pow_sub_one, Nat.testBit_two_pow]
  exact bne_decide_lt_succ _ _

theorem grayVal_succ (i : ℕ) : grayVal (i + 1) = grayVal i ^^^ 2 ^ lsb (i + 1) := by
  have h := grayVal_succ_xor i
  calc grayVal (i + 1) = (grayVal (i + 1) ^^^ grayVal i) ^^^ grayVal i := by
        rw [Nat.xor_assoc, Nat.xor_self, Nat.xor_zero]
    _ = (2 ^ lsb (i + 1)) ^^^ grayVal i := by rw [h]
    _ = grayVal i ^^^ 2 ^ lsb (i + 1) := Nat.xor_comm _ _

theorem grayVal_lt {n i : ℕ} (h : i < 2 ^ n) : grayVal i < 2 ^ n :=
  Nat.xor_lt_two_pow h (lt_of_le_of_lt (Nat.div_le_self i 2) h)

theorem grayVal_div_two (a : ℕ) : grayVal a / 2 = grayVal (a / 2) := by
  rw [grayVal, grayVal, xor_div_two]

theorem grayVal_eq_zero {b : ℕ} (h : grayVal b = 0) : b = 0 := by
  rw [grayVal] at h
  have := Nat.xor_eq_zero.mp h
  omega

theorem grayVal_inj : ∀ a b : ℕ, grayVal a = grayVal b → a = b := by
  intro a
  induction a using Nat.strong_induction_on with
  | _ a ih =>
    intro b h
    rcases Nat.eq_zero_or_pos a with ha | ha
    · subst ha
      exact (grayVal_eq_zero h.symm).symm
    · have hd : a / 2 = b / 2 := by
        apply ih (a / 2) (Nat.div_lt_self ha Nat.one_lt_two)
        rw [← grayVal_div_two, ← grayVal_div_two, h]
      calc a = grayVal a ^^^ a / 2 := by
            rw [grayVal, Nat.xor_assoc, Nat.xor_self, Nat.xor_zero]
        _ = grayVal b ^^^ b / 2 := by rw [h, hd]
        _ = b := by rw [grayVal, Nat.xor_assoc, Nat.xor_self, Nat.xor_zero]

theorem grayVal_surjOn (n w : ℕ) (hw : w < 2 ^ n) :
    ∃ i, i < 2 ^ n ∧ grayVal i = w := by
  have hinj : Function.Injective (fun i : Fin (2 ^ n) => (⟨grayVal i.val, grayVal_lt i.isLt⟩ : Fin (2 ^ n))) := by
    intro i j hij
    exact Fin.ext (grayVal_inj i.val j.val (congrArg Fin.val hij))
  obtain ⟨i, hi⟩ := Finite.injective_iff_surjective.mp hinj ⟨w, hw⟩
  exact ⟨i.val, i.isLt, congrArg Fin.val hi⟩

/-- The `n` low bits of `v`, least significant first, as matrix entries. -/
def natToBits (n v : ℕ) : List ℤ :=
  (List.range n).map (fun j => if v.testBit j then 1 else 0)

/-- Value of a little-endian 0/1 vector. -/
def bitsToNat : List ℤ → ℕ
  | [] => 0
  | b :: t => (if b = 0 then 0 else 1) + 2 * bitsToNat t

theorem natToBits_length (n v : ℕ) : (natToBits n v).length = n := by
  simp [natToBits]

theorem natToBits_zero (n : ℕ) : natToBits n 0 = List.replicate n 0 := by
  simp only [natToBits, Nat.zero_testBit, if_false]
  rw [List.map_const']
  simp

theorem natToBits_getD {n j : ℕ} (v : ℕ) (h : j < n) :
    (natToBits n v).getD j 0 = if v.testBit j then 1 else 0 := by
  simp [natToBits, List.getD_eq_getElem?_getD, List.getElem?_map,
    List.getElem?_range, h]

theorem natToBits_succ (n v : ℕ) :
    natToBits (n + 1) v = (if v.testBit 0 then (1 : ℤ) else 0) :: natToBits n (v / 2) := by
  rw [natToBits, List.range_succ_eq_map, List.map_cons, List.map_map]
  congr 1
  apply List.map_congr_left
  intro j _
  simp [Nat.testBit_add_one]

theorem natToBits_inj {n a b : ℕ} (ha : a < 2 ^ n) (hb : b < 2 ^ n)
    (h : natToBits n a = natToBits n b) : a = b := by
  apply Nat.eq_of_testBit_eq
  intro j
  by_cases hj : j < n
  · have hg := congrArg (fun l => l.getD j (0 : ℤ)) h
    simp only [natToBits_getD _ hj] at hg
    rcases h1 : a.testBit j with _ | _ <;> rcases h2 : b.testBit j with _ | _ <;>
      simp [h1, h2] at hg ⊢
  · have hle : 2 ^ n ≤ 2 ^ j := Nat.pow_le_pow_right (by omega) (by omega)
    rw [Nat.testBit_eq_false_of_lt (by omega), Nat.testBit_eq_false_of_lt (by omega)]

theorem bitsToNat_lt : ∀ bits : List ℤ, (∀ b ∈ bits, b = 0 ∨ b = 1) →
    bitsToNat bits < 2 ^ bits.length
  | [], _ => by simp [bitsToNat]
  | b :: t, h => by
    have ht := bitsToNat_lt t (fun x hx => h x (List.mem_cons_of_mem b hx))
    have hb : (if b = 0 then 0 else 1) ≤ 1 := by
      rcases h b (List.mem_cons_self b t) with hb | hb <;> simp [hb]
    simp only [bitsToNat, List.length_cons, pow_succ]
    omega

theorem natToBits_bitsToNat : ∀ bits : List ℤ, (∀ b ∈ bits, b = 0 ∨ b = 1) →
    natToBits bits.length (bitsToNat bits) = bits
  | [], _ => rfl
  | b :: t, h => by
    rw [List.length_cons, natToBits_succ]
    have hb2 : (if b = 0 then 0 else 1) < 2 := by
      by_cases hb : b = 0 <;> simp [hb]
    congr 1
    · rw [show bitsToNat (b :: t) = 2 * bitsToNat t + (if b = 0 then 0 else 1) by
        rw [bitsToNat]; ring]
      rw [testBit_two_mul_add_zero hb2]
      rcases h b (List.mem_cons_self b t) with hb | hb <;> simp [hb]
    · rw [show bitsToNat (b :: t) / 2 = bitsToNat t by rw [bitsToNat]; omega]
      exact natToBits_bitsToNat t (fun x hx => h x (List.mem_cons_of_mem b hx))

/-- One loop-body update of `_graycode`:
`samples[i, :] = samples[i-1, :]; samples[i, v] = not samples[i-1, v]`
(numpy stores the Python bool `not x` back into the `int8` row as 1/0). -/
def flipEntry (row : List ℤ) (v : ℕ) : List ℤ :=
  row.set v (if row.getD v 0 = 0 then 1 else 0)

/-- Row `i` of the `_graycode` sample matrix: row `0` is all-zero, and row `i`
is row `i-1` with the entry at the least significant set bit of `i` flipped. -/
def grayRow (n : ℕ) : ℕ → List ℤ
  | 0 => List.replicate n 0
  | i + 1 => flipEntry (grayRow n i) (lsb (i + 1))

/-- `_graycode(bqm)`: the full `2^n × n` sample matrix, row `i` built from row
`i-1` by the single-bit flip of the source's loop. -/
def graycode (n : ℕ) : List (List ℤ) := (List.range (2 ^ n)).map (grayRow n)

theorem flipEntry_natToBits {n v g : ℕ} (hv : v < n) :
    flipEntry (natToBits n g) v = natToBits n (g ^^^ 2 ^ v) := by
  unfold flipEntry
  apply List.ext_getElem
  · simp [natToBits_length]
  · intro j hj1 hj2
    rw [natToBits_length] at hj2
    rw [List.getElem_set]
    by_cases hjv : v = j
    · subst hjv
      rw [if_pos rfl, natToBits_getD g hv]
      have hx : (g ^^^ 2 ^ v).testBit v = !(g.testBit v) := by
        rw [Nat.testBit_xor, Nat.testBit_two_pow_self, Bool.xor_true]
      simp only [natToBits, List.getElem_map, List.getElem_range, hx]
      rcases hgv : g.testBit v with _ | _ <;> simp [hgv]
    · rw [if_neg hjv]
      have hx : (g ^^^ 2 ^ v).testBit j = g.testBit j := by
        rw [Nat.testBit_xor, Nat.testBit_two_pow_of_ne hjv, Bool.xor_false]
      simp only [natToBits, List.getElem_map, List.getElem_range, hx]

theorem lsb_lt_of_lt_two_pow {n i : ℕ} (h0 : i ≠ 0) (h : i < 2 ^ n) : lsb i < n := by
  have h1 : 2 ^ lsb i ≤ i := two_pow_lsb_le h0
  have h2 : 2 ^ lsb i < 2 ^ n := lt_of_le_of_lt h1 h
  by_contra hcon
  have h3 : 2 ^ n ≤ 2 ^ lsb i := Nat.pow_le_pow_right (by omega) (by omega)
  omega

/-- Row `i` of `_graycode` is the bit vector of the reflected Gray code value
`i XOR (i >> 1)`. -/
theorem grayRow_eq (n : ℕ) : ∀ i, i < 2 ^ n → grayRow n i = natToBits n (grayVal i)
  | 0, _ => by
    rw [grayRow, show grayVal 0 = 0 from rfl, natToBits_zero]
  | i + 1, h => by
    rw [grayRow, grayRow_eq n i (by omega),
      flipEntry_natToBits (lsb_lt_of_lt_two_pow (by omega) h), ← grayVal_succ]

theorem graycode_length (n : ℕ) : (graycode n).length = 2 ^ n := by
  simp [graycode]

theorem graycode_getD {n i : ℕ} (h : i < 2 ^ n) :
    (graycode n).getD i [] = grayRow n i := by
  simp [graycode, List.getD_eq_getElem?_getD, List.getElem?_map,
    List.getElem?_range, h]

theorem graycode_nodup (n : ℕ) : (graycode n).Nodup := by
  rw [graycode,
    List.map_congr_left (fun i hi => grayRow_eq n i (List.mem_range.mp hi))]
  refine (List.nodup_range _).map_on ?_
  intro i hi j hj hef
  exact grayVal_inj i j
    (natToBits_inj (grayVal_lt (List.mem_range.mp hi))
      (grayVal_lt (List.mem_range.mp hj)) hef)

theorem countP_eq_one_of_nodup_mem {α : Type} [DecidableEq α] {l : List α} {a : α}
    (hn : l.Nodup) (ha : a ∈ l) : l.countP (fun x => decide (x = a)) = 1 := by
  induction l with
  | nil => cases ha
  | cons b l ih =>
    rw [List.countP_cons]
    rcases List.mem_cons.mp ha with rfl | ha'
    · have hb : a ∉ l := (List.nodup_cons.mp hn).1
      have hz : l.countP (fun x => decide (x = a)) = 0 := by
        rw [List.countP_eq_zero]
        intro x hx hxa
        exact hb (of_decide_eq_true hxa ▸ hx)
      simp [hz]
    · have hba : ¬ (b = a) := fun hh => (List.nodup_cons.mp hn).1 (hh ▸ ha')
      rw [ih (List.nodup_cons.mp hn).2 ha']
      simp [hba]

theorem graycode_mem (n : ℕ) (bits : List ℤ) (hlen : bits.length = n)
    (hbin : ∀ b ∈ bits, b = 0 ∨ b = 1) : bits ∈ graycode n := by
  obtain ⟨i, hi, hgv⟩ := grayVal_surjOn n (bitsToNat bits)
    (hlen ▸ bitsToNat_lt bits hbin)
  have hrow : grayRow n i = bits := by
    rw [grayRow_eq n i hi, hgv, ← hlen, natToBits_bitsToNat bits hbin]
  rw [graycode]
  exact List.mem_map.mpr ⟨i, List.mem_range.mpr hi, hrow⟩

theorem graycode_complete (n : ℕ) (bits : List ℤ) (hlen : bits.length = n)
    (hbin : ∀ b ∈ bits, b = 0 ∨ b = 1) :
    (graycode n).countP (fun r => decide (r = bits)) = 1 :=
  countP_eq_one_of_nodup_mem (graycode_nodup n) (graycode_mem n bits hlen hbin)

/-- `dimod.vartypes.Vartype`: the declared domain kind of a variable.
`REAL` stands for any kind other than the three the CQM solver supports. -/
inductive Vartype where
  | SPIN
  | BINARY
  | INTEGER
  | REAL
deriving DecidableEq

/-- A binary quadratic model, as read by `ExactSolver.sample`: the ordered
variable list, the declared vartype, and the (external) linear/quadratic/offset
coefficients that determine its energy. -/
structure BQM where
  vars : List ℕ
  vartype : Vartype
  linear : ℕ → ℚ
  quadratic : ℕ → ℕ → ℚ
  offset : ℚ

/-- What `ExactSolver.sample` hands to `SampleSet.from_samples_bqm`: the sample
matrix, its aligned variable order and the per-row energies. -/
structure SampleResult where
  samples : List (List ℤ)
  vars : List ℕ
  energies : List ℚ
deriving DecidableEq

/-- Modelled from the spec: the batch energy evaluation
`SampleSet.from_samples_bqm` performs through `bqm.energies` (dimod core code
outside `src/`) — offset plus linear terms plus upper-triangular quadratic
terms, the "standard Ising energy form" of §8 item 7 when the vartype is spin.
Row entries are aligned with `bqm.vars`. -/
def bqmEnergy (bqm : BQM) (s : List ℤ) : ℚ :=
  bqm.offset
    + ((List.range bqm.vars.length).map
        (fun j => bqm.linear (bqm.vars.getD j 0) * ((s.getD j 0 : ℤ) : ℚ))).sum
    + ((List.range bqm.vars.length).flatMap (fun j =>
        ((List.range bqm.vars.length).filter (fun k => decide (j < k))).map
          (fun k => bqm.quadratic (bqm.vars.getD j 0) (bqm.vars.getD k 0)
            * ((s.getD j 0 : ℤ) : ℚ) * ((s.getD k 0 : ℤ) : ℚ)))).sum

/-- `ExactSolver.sample(bqm)`: an empty model short-circuits to the empty
sample set; otherwise `_graycode` builds the 0/1 matrix, which is affinely
remapped by `2*samples - 1` when the vartype is spin, and the energies are
evaluated per row. -/
def sample (bqm : BQM) : SampleResult :=
  if bqm.vars.isEmpty then ⟨[], [], []⟩
  else
    let samples0 := graycode bqm.vars.length
    let samples := if bqm.vartype = Vartype.SPIN
      then samples0.map (fun row => row.map (fun x => 2 * x - 1))
      else samples0
    ⟨samples, bqm.vars, samples.map (bqmEnergy bqm)⟩

/-- A discrete quadratic model as read by `ExactDQMSolver.sample_dqm`: ordered
variables, per-variable case counts, and the external batch energy function
(`dqm.energies`), evaluated here per row aligned with `dqm.vars`. -/
structure DQM where
  vars : List ℕ
  numCases : ℕ → ℕ
  energy : List ℕ → ℚ

/-- `_all_cases_dqm(dqm)`:
`np.array(np.meshgrid(*[range(num_cases(v)) for v in variables])).T.reshape(-1, n)`
paired with the variable list.  For the zero-variable model the
`reshape(-1, 0)` of a size-0 array raises `ValueError` (modelled as `none`);
`sample_dqm` short-circuits that case before calling this function. -/
def allCasesDQM (dqm : DQM) : Option (List (List ℕ) × List ℕ) :=
  if dqm.vars.isEmpty then none
  else some (meshRows (dqm.vars.map (fun v => List.range (dqm.numCases v))),
    dqm.vars)

/-- What `ExactDQMSolver.sample_dqm` hands to `SampleSet.from_samples`. -/
structure DQMResult where
  samples : List (List ℕ)
  vars : List ℕ
  energies : List ℚ
deriving DecidableEq

/-- `ExactDQMSolver.sample_dqm(dqm)`: empty model short-circuits to the empty
sample set, otherwise enumerate all cases and evaluate the energies. -/
def sampleDQM (dqm : DQM) : Option DQMResult :=
  if dqm.vars.isEmpty then some ⟨[], [], []⟩
  else
    match allCasesDQM dqm with
    | none => none
    | some (cases0, vs) => some ⟨cases0, vs, cases0.map dqm.energy⟩

/-- A constrained quadratic model as read by `ExactCQMSolver.sample_cqm`:
the ordered variable list; for each label in `cqm.discrete` (in iteration
order) the variable list of that one-hot constraint's `lhs`; the per-variable
vartype and integer bounds (already truncated to integers, as
`int(cqm.lower_bound(v))` / `int(cqm.upper_bound(v))` do); and the external
constraint/objective evaluation interfaces: one violation function per
declared constraint (in `cqm.iter_violations` order) and the objective energy,
both taking a sample row together with its aligned variable order. -/
structure CQM where
  vars : List ℕ
  discrete : List (List ℕ)
  vartype : ℕ → Vartype
  lowerBound : ℕ → ℤ
  upperBound : ℕ → ℤ
  violations : List (List ℤ → List ℕ → ℚ)
  objEnergy : List ℤ → List ℕ → ℚ

/-- The message of the `ValueError` raised by `_iterator_by_vartype`. -/
def supportedMsg : String :=
  "Only Binary, Spin, or Integer variables supported by ExactCQMSolver"

/-- Python's `range(lo, hi + 1)`: the inclusive integer interval. -/
def intRange (lo hi : ℤ) : List ℤ :=
  (List.range (hi + 1 - lo).toNat).map (fun j : ℕ => lo + (j : ℤ))

/-- `_iterator_by_vartype(cqm, v)`: the iterable domain of a free-form
variable, or the `ValueError` for unsupported vartypes. -/
def iteratorByVartype (cqm : CQM) (v : ℕ) : Except String (List ℤ) :=
  match cqm.vartype v with
  | Vartype.BINARY => Except.ok [0, 1]
  | Vartype.SPIN => Except.ok [-1, 1]
  | Vartype.INTEGER => Except.ok (intRange (cqm.lowerBound v) (cqm.upperBound v))
  | _ => Except.error supportedMsg

/-- `d_vars`: the variables participating in discrete one-hot groups,
in group order then within-group order. -/
def dVars (cqm : CQM) : List ℕ := cqm.discrete.flatten

/-- The free-form variables: `[v for v in var_list if v not in set(d_vars)]`. -/
def freeVars (cqm : CQM) : List ℕ :=
  cqm.vars.filter (fun v => decide (v ∉ dVars cqm))

/-- The comprehension `[_iterator_by_vartype(cqm, v) for v in var_list]`:
evaluated left to right, aborting on the first raised `ValueError`. -/
def iterFreeCases (cqm : CQM) : List ℕ → Except String (List (List ℤ))
  | [] => Except.ok []
  | v :: vs =>
    match iteratorByVartype cqm v with
    | Except.error e => Except.error e
    | Except.ok c =>
      match iterFreeCases cqm vs with
      | Except.error e => Except.error e
      | Except.ok cs => Except.ok (c :: cs)

/-- `s = np.zeros(k); s[j] = 1`: the one-hot vector of length `k`. -/
def oneHot (k j : ℕ) : List ℤ :=
  (List.range k).map (fun t => if t = j then 1 else 0)

/-- The inner loop of `_all_cases_cqm`: concatenation of one one-hot vector per
discrete group, group `i` of length `d_cases[i]` with the one at `indexes[i]`. -/
def oneHotConcat (ds idx : List ℕ) : List ℤ :=
  ((ds.zip idx).map (fun p => oneHot p.1 p.2)).flatten

/-- `c1` of `_all_cases_cqm`: `np.array(np.meshgrid(*cases))`, reshaped to a
row matrix only `if len(var_list)`; with no free-form variables the raw array
has zero length. -/
def cqmC1 (cqm : CQM) (cases0 : List (List ℤ)) : List (List ℤ) :=
  if (freeVars cqm).isEmpty then [] else meshRows cases0

/-- The `combinations` loop of `_all_cases_cqm`: for every element of
`itertools.product(*[range(d) for d in d_cases])` (hit zero times when
`d_cases` is empty — the `break` on the empty tuple), concatenate the one-hot
vectors `l` with every row of `c1`; when `c1` has no rows (`if len(c1)` false)
the bare `l` is appended instead. -/
def cqmCombinations (dCases : List ℕ) (c1 : List (List ℤ)) : List (List ℤ) :=
  if dCases.isEmpty then [] else
    (cartProd (dCases.map List.range)).flatMap (fun idx =>
      if c1.length ≠ 0 then c1.map (fun row => oneHotConcat dCases idx ++ row)
      else [oneHotConcat dCases idx])

/-- `_all_cases_cqm(cqm)`: the discrete groups are set aside
(`d_cases`, `d_vars`), the remaining free-form variables are enumerated by a
meshgrid over their domains (`c1`), then the `combinations` loop crosses the
one-hot group choices with the free-form rows.  If the loop appended nothing
(`if not len(combinations)`), the result is `c1` itself.  The returned
variable order is `d_vars + var_list`. -/
def allCasesCQM (cqm : CQM) : Except String (List (List ℤ) × List ℕ) :=
  match iterFreeCases cqm (freeVars cqm) with
  | Except.error e => Except.error e
  | Except.ok cases0 =>
    let combinations := cqmCombinations (cqm.discrete.map List.length)
      (cqmC1 cqm cases0)
    Except.ok (if combinations.isEmpty then cqmC1 cqm cases0 else combinations,
      dVars cqm ++ freeVars cqm)

/-- What `ExactCQMSolver.sample_cqm` hands to `SampleSet.from_samples`:
samples, variable order, energies, the per-sample per-constraint satisfaction
lists and the per-sample feasibility flags. -/
structure CQMResult where
  samples : List (List ℤ)
  vars : List ℕ
  energies : List ℚ
  isSatisfied : List (List Bool)
  isFeasible : List Bool
deriving DecidableEq

/-- `energies = cqm.objective.energies(cases)`: the objective value of each
sample row (external interface, applied row by row with the row's aligned
variable order). -/
def cqmEnergies (cqm : CQM) (rows : List (List ℤ)) (order : List ℕ) : List ℚ :=
  rows.map (fun r => cqm.objEnergy r order)

/-- The `is_satisfied` comprehension of `sample_cqm`:
`[[violation <= atol + rtol*abs(energies[i]) for _, violation in
cqm.iter_violations((cases[0][i], cases[1]))] for i in range(len(cases[0]))]`. -/
def satLists (cqm : CQM) (rtol atol : ℚ) (rows : List (List ℤ)) (order : List ℕ) :
    List (List Bool) :=
  (List.range rows.length).map (fun i =>
    cqm.violations.map (fun viol =>
      decide (viol (rows.getD i []) order
        ≤ atol + rtol * |(cqmEnergies cqm rows order).getD i 0|)))

/-- `ExactCQMSolver.sample_cqm(cqm, rtol, atol)`: empty model short-circuits;
otherwise enumerate all cases, evaluate the objective energies, mark
constraint `c` satisfied for sample `i` iff
`violation ≤ atol + rtol * abs(energies[i])`, and set each sample's
feasibility flag to the conjunction `all(satisfied)`. -/
def sampleCQM (cqm : CQM) (rtol atol : ℚ) : Except String CQMResult :=
  if cqm.vars.isEmpty then Except.ok ⟨[], [], [], [], []⟩
  else
    match allCasesCQM cqm with
    | Except.error e => Except.error e
    | Except.ok (cases0, order) =>
      Except.ok ⟨cases0, order, cqmEnergies cqm cases0 order,
        satLists cqm rtol atol cases0 order,
        (satLists cqm rtol atol cases0 order).map (fun s => s.all id)⟩

/-- The supported free-form vartypes of `_iterator_by_vartype`. -/
def supportedVt (vt : Vartype) : Prop :=
  vt = Vartype.BINARY ∨ vt = Vartype.SPIN ∨ vt = Vartype.INTEGER

instance (vt : Vartype) : Decidable (supportedVt vt) :=
  inferInstanceAs (Decidable (vt = Vartype.BINARY ∨ vt = Vartype.SPIN
    ∨ vt = Vartype.INTEGER))

instance {ε α : Type} [DecidableEq ε] [DecidableEq α] : DecidableEq (Except ε α)
  | Except.error a, Except.error b =>
    if h : a = b then isTrue (h ▸ rfl)
    else isFalse (fun hh => h (Except.error.inj hh))
  | Except.error _, Except.ok _ => isFalse (fun hh => Except.noConfusion hh)
  | Except.ok _, Except.error _ => isFalse (fun hh => Except.noConfusion hh)
  | Except.ok a, Except.ok b =>
    if h : a = b then isTrue (h ▸ rfl)
    else isFalse (fun hh => h (Except.ok.inj hh))

theorem ite_bit_ne {a b : Bool} :
    ((if a then (1 : ℤ) else 0) ≠ (if b then (1 : ℤ) else 0)) ↔ a ≠ b := by
  rcases a <;> rcases b <;> simp

/-- C3: for every `n ≥ 0` the `_graycode` matrix has exactly `2^n` rows, the
rows are pairwise distinct, and every binary vector of length `n` appears as a
row exactly once. -/
theorem c3_graycode_complete (n : ℕ) :
    (graycode n).length = 2 ^ n ∧ (graycode n).Nodup ∧
    ∀ bits : List ℤ, bits.length = n → (∀ b ∈ bits, b = 0 ∨ b = 1) →
      (graycode n).countP (fun r => decide (r = bits)) = 1 :=
  ⟨graycode_length n, graycode_nodup n,
   fun bits h1 h2 => graycode_complete n bits h1 h2⟩

/-- Witness for C3 at `n = 2`, evaluating the count of the vector `[1, 1]`. -/
theorem c3_witness :
    (graycode 2).length = 2 ^ 2 ∧
    (graycode 2).countP (fun r => decide (r = [1, 1])) = 1 :=
  ⟨(c3_graycode_complete 2).1,
   (c3_graycode_complete 2).2.2 [1, 1] rfl (by decide)⟩

/-- C4: row 0 of `_graycode` is the all-zero vector, and for every
`1 ≤ i < 2^n` row `i` differs from row `i-1` in exactly one coordinate, namely
the index of the lowest set bit of `i` (always a valid column index). -/
theorem c4_graycode_adjacent (n : ℕ) :
    (graycode n).getD 0 [] = List.replicate n 0 ∧
    ∀ i, 1 ≤ i → i < 2 ^ n →
      lsb i < n ∧
      ∀ j, j < n →
        (((graycode n).getD i []).getD j 0 ≠ ((graycode n).getD (i - 1) []).getD j 0
          ↔ j = lsb i) := by
  constructor
  · rw [graycode_getD (Nat.pos_pow_of_pos n (by omega)), grayRow]
  · intro i h1 h2
    obtain ⟨m, rfl⟩ : ∃ m, i = m + 1 := ⟨i - 1, by omega⟩
    refine ⟨lsb_lt_of_lt_two_pow (by omega) h2, ?_⟩
    intro j hj
    rw [graycode_getD h2, graycode_getD (by omega : m + 1 - 1 < 2 ^ n),
      show m + 1 - 1 = m from rfl, grayRow_eq n (m + 1) h2,
      grayRow_eq n m (by omega), natToBits_getD _ hj, natToBits_getD _ hj,
      ite_bit_ne]
    have key : grayVal (m + 1) ^^^ grayVal m = 2 ^ lsb (m + 1) :=
      grayVal_succ_xor m
    constructor
    · intro hne
      have hb : (grayVal (m + 1) ^^^ grayVal m).testBit j = true := by
        rw [Nat.testBit_xor]
        rcases hA : (grayVal (m + 1)).testBit j <;>
          rcases hB : (grayVal m).testBit j <;> simp_all
      rw [key, Nat.testBit_two_pow] at hb
      exact (of_decide_eq_true hb).symm
    · intro hj'
      subst hj'
      have hb : (grayVal (m + 1) ^^^ grayVal m).testBit (lsb (m + 1)) = true := by
        rw [key, Nat.testBit_two_pow_self]
      rw [Nat.testBit_xor] at hb
      intro heq
      rw [heq] at hb
      simp at hb

/-- Witness for C4 at `n = 2`, `i = 1`. -/
theorem c4_witness :
    (graycode 2).getD 0 [] = List.replicate 2 0 ∧
    (lsb 1 < 2 ∧ ∀ j, j < 2 →
      (((graycode 2).getD 1 []).getD j 0 ≠ ((graycode 2).getD 0 []).getD j 0
        ↔ j = lsb 1)) :=
  ⟨(c4_graycode_adjacent 2).1, (c4_graycode_adjacent 2).2 1 (by decide) (by decide)⟩

/-- The doc-example spin model `h = {a: -0.5, b: 1.0}`, `J = {(a,b): -1.5}`,
with labels `a ↦ 0`, `b ↦ 1` in variable order. -/
def bqm9 : BQM :=
  ⟨[0, 1], Vartype.SPIN,
   fun v => if v = 0 then -1/2 else 1,
   fun u v => if u = 0 ∧ v = 1 then -3/2 else 0,
   0⟩

/-- C9: on the two-spin model `h = {a: -0.5, b: 1.0}`, `J = {(a,b): -1.5}`,
`ExactSolver.sample` (i.e. `_graycode` followed by the `2*samples - 1` spin
remap) yields all four spin assignments in Gray-code-derived order
`(-1,-1), (+1,-1), (+1,+1), (-1,+1)`, and the Ising energies pair with the
assignments as `(-1,-1) ↦ -2`, `(+1,+1) ↦ -1`, `(+1,-1) ↦ 0`, `(-1,+1) ↦ 3`. -/
theorem c9_two_spin_scenario :
    (sample bqm9).samples = [[-1, -1], [1, -1], [1, 1], [-1, 1]] ∧
    (sample bqm9).energies = [-2, 0, -1, 3] ∧
    bqmEnergy bqm9 [-1, -1] = -2 ∧ bqmEnergy bqm9 [1, 1] = -1 ∧
    bqmEnergy bqm9 [1, -1] = 0 ∧ bqmEnergy bqm9 [-1, 1] = 3 := by
  have hs : (sample bqm9).samples = [[-1, -1], [1, -1], [1, 1], [-1, 1]] := by
    decide
  have he1 : bqmEnergy bqm9 [-1, -1] = -2 := by
    norm_num [bqmEnergy, bqm9, List.range_succ, List.filter_cons, List.filter_nil,
      List.flatMap_cons, List.flatMap_nil, List.getD_cons_zero, List.getD_cons_succ]
  have he2 : bqmEnergy bqm9 [1, -1] = 0 := by
    norm_num [bqmEnergy, bqm9, List.range_succ, List.filter_cons, List.filter_nil,
      List.flatMap_cons, List.flatMap_nil, List.getD_cons_zero, List.getD_cons_succ]
  have he3 : bqmEnergy bqm9 [1, 1] = -1 := by
    norm_num [bqmEnergy, bqm9, List.range_succ, List.filter_cons, List.filter_nil,
      List.flatMap_cons, List.flatMap_nil, List.getD_cons_zero, List.getD_cons_succ]
  have he4 : bqmEnergy bqm9 [-1, 1] = 3 := by
    norm_num [bqmEnergy, bqm9, List.range_succ, List.filter_cons, List.filter_nil,
      List.flatMap_cons, List.flatMap_nil, List.getD_cons_zero, List.getD_cons_succ]
  have hE : (sample bqm9).energies = [-2, 0, -1, 3] := by
    have hmap : (sample bqm9).energies = (sample bqm9).samples.map (bqmEnergy bqm9) := rfl
    rw [hmap, hs]
    simp [he1, he2, he3, he4]
  exact ⟨hs, hE, he1, he3, he2, he4⟩

/-- The empty binary quadratic model. -/
def bqmEmpty : BQM := ⟨[], Vartype.SPIN, fun _ => 0, fun _ _ => 0, 0⟩

/-- The empty discrete quadratic model. -/
def dqmEmpty : DQM := ⟨[], fun _ => 0, fun _ => 0⟩

/-- The empty constrained quadratic model. -/
def cqmEmpty : CQM :=
  ⟨[], [], fun _ => Vartype.BINARY, fun _ => 0, fun _ => 0, [], fun _ _ => 0⟩

/-- C8: a zero-variable model short-circuits to the explicitly empty result in
each of the three entry points (no samples, no energies, and no error). -/
theorem c8_empty_models (bqm : BQM) (dqm : DQM) (cqm : CQM) (rtol atol : ℚ) :
    (bqm.vars = [] → sample bqm = ⟨[], [], []⟩) ∧
    (dqm.vars = [] → sampleDQM dqm = some ⟨[], [], []⟩) ∧
    (cqm.vars = [] → sampleCQM cqm rtol atol = Except.ok ⟨[], [], [], [], []⟩) := by
  refine ⟨?_, ?_, ?_⟩ <;> intro h <;> simp [sample, sampleDQM, sampleCQM, h]

/-- Witness for C8 on the three concrete empty models. -/
theorem c8_witness :
    sample bqmEmpty = ⟨[], [], []⟩ ∧
    sampleDQM dqmEmpty = some ⟨[], [], []⟩ ∧
    sampleCQM cqmEmpty 0 0 = Except.ok ⟨[], [], [], [], []⟩ :=
  ⟨(c8_empty_models bqmEmpty dqmEmpty cqmEmpty 0 0).1 rfl,
   (c8_empty_models bqmEmpty dqmEmpty cqmEmpty 0 0).2.1 rfl,
   (c8_empty_models bqmEmpty dqmEmpty cqmEmpty 0 0).2.2 rfl⟩

theorem getD_map_lt {α β : Type} (f : α → β) (l : List α) {i : ℕ}
    (h : i < l.length) (d : β) (d' : α) :
    (l.map f).getD i d = f (l.getD i d') := by
  simp [List.getD_eq_getElem?_getD, List.getElem?_map, List.getElem?_eq_getElem h]

theorem getD_range_lt {n i : ℕ} (h : i < n) : (List.range n).getD i 0 = i := by
  simp [List.getD_eq_getElem?_getD, List.getElem?_range, h]

theorem satLists_length (cqm : CQM) (rtol atol : ℚ) (rows : List (List ℤ))
    (order : List ℕ) : (satLists cqm rtol atol rows order).length = rows.length := by
  simp [satLists]

theorem satLists_getD (cqm : CQM) (rtol atol : ℚ) (rows : List (List ℤ))
    (order : List ℕ) {i : ℕ} (hi : i < rows.length) :
    (satLists cqm rtol atol rows order).getD i [] =
      cqm.violations.map (fun viol =>
        decide (viol (rows.getD i []) order
          ≤ atol + rtol * |(cqmEnergies cqm rows order).getD i 0|)) := by
  rw [satLists, getD_map_lt _ _ (by simpa using hi) [] 0, getD_range_lt hi]

/-- Any successful `sample_cqm` call either took the empty-model short-circuit
or assembled its result from the `_all_cases_cqm` enumeration. -/
theorem sampleCQM_ok_cases {cqm : CQM} {rtol atol : ℚ} {res : CQMResult}
    (h : sampleCQM cqm rtol atol = Except.ok res) :
    (cqm.vars.isEmpty = true ∧ res = ⟨[], [], [], [], []⟩) ∨
    (cqm.vars.isEmpty = false ∧ ∃ rows order,
      allCasesCQM cqm = Except.ok (rows, order) ∧
      res = ⟨rows, order, cqmEnergies cqm rows order,
        satLists cqm rtol atol rows order,
        (satLists cqm rtol atol rows order).map (fun s => s.all id)⟩) := by
  by_cases hemp : cqm.vars.isEmpty = true
  · rw [sampleCQM, if_pos hemp] at h
    exact Or.inl ⟨hemp, (Except.ok.inj h).symm⟩
  · rw [sampleCQM, if_neg hemp] at h
    rcases hac : allCasesCQM cqm with e | ⟨rows, order⟩
    · rw [hac] at h
      exact absurd h (by simp)
    · rw [hac] at h
      exact Or.inr ⟨Bool.not_eq_true _ ▸ hemp, rows, order, rfl,
        (Except.ok.inj h).symm⟩

theorem all_id_iff_getD (l : List Bool) :
    l.all id = true ↔ ∀ g, g < l.length → l.getD g false = true := by
  rw [List.all_eq_true]
  constructor
  · intro hall g hg
    have hgd : l.getD g false = l[g] := by
      simp [List.getD_eq_getElem?_getD, List.getElem?_eq_getElem hg]
    rw [hgd]
    exact hall _ (List.getElem_mem hg)
  · intro hidx x hx
    obtain ⟨g, hg, rfl⟩ := List.mem_iff_getElem.mp hx
    have := hidx g hg
    rwa [List.getD_eq_getElem?_getD, List.getElem?_eq_getElem hg] at this

/-- C2: whenever `sample_cqm` succeeds, the energy of sample `i` is the
objective value at row `i`; constraint `c` is marked satisfied for sample `i`
iff its violation is at most `atol + rtol * |energy_i|`; and the feasibility
flag of sample `i` is the conjunction of its per-constraint satisfaction
flags. -/
theorem c2_satisfaction_rule (cqm : CQM) (rtol atol : ℚ) (res : CQMResult)
    (h : sampleCQM cqm rtol atol = Except.ok res) (i c : ℕ)
    (hi : i < res.samples.length) (hc : c < cqm.violations.length) :
    res.energies.getD i 0 = cqm.objEnergy (res.samples.getD i []) res.vars ∧
    ((res.isSatisfied.getD i []).getD c false = true ↔
      (cqm.violations.getD c (fun _ _ => 0)) (res.samples.getD i []) res.vars
        ≤ atol + rtol * |res.energies.getD i 0|) ∧
    (res.isFeasible.getD i false = true ↔
      ∀ g, g < cqm.violations.length →
        (res.isSatisfied.getD i []).getD g false = true) := by
  rcases sampleCQM_ok_cases h with ⟨hemp, rfl⟩ | ⟨hemp, rows, order, hac, rfl⟩
  · simp at hi
  · dsimp only at hi ⊢
    refine ⟨?_, ?_, ?_⟩
    · rw [cqmEnergies, getD_map_lt _ _ hi 0 []]
    · rw [satLists_getD cqm rtol atol rows order hi,
        getD_map_lt _ _ hc false (fun _ _ => 0), decide_eq_true_iff]
    · rw [getD_map_lt _ _ (by simpa [satLists_length] using hi) false [],
        all_id_iff_getD, satLists_getD cqm rtol atol rows order hi]
      simp only [List.length_map]

theorem getD_false_eq_true_lt {l : List Bool} {c : ℕ}
    (h : l.getD c false = true) : c < l.length := by
  by_contra hc
  rw [List.getD_eq_default _ _ (by omega)] at h
  cases h

theorem countP_le_of_imp {α : Type} (l : List α) (f g : α → Bool)
    (h : ∀ x ∈ l, f x = true → g x = true) : l.countP f ≤ l.countP g := by
  induction l with
  | nil => simp
  | cons a l ih =>
    simp only [List.countP_cons]
    have hih := ih (fun x hx => h x (List.mem_cons_of_mem a hx))
    have e0 : (if (false : Bool) = true then 1 else 0) = 0 := rfl
    have e1 : (if (true : Bool) = true then 1 else 0) = 1 := rfl
    rcases hf : f a with _ | _
    · rcases hg : g a with _ | _
      · rw [e0]
        omega
      · rw [e0, e1]
        omega
    · rw [h a (List.mem_cons_self a l) hf, e1]
      omega

theorem countP_map_le_of_imp {α : Type} (l : List α) (f g : α → Bool)
    (h : ∀ x ∈ l, f x = true → g x = true) :
    (l.map f).countP id ≤ (l.map g).countP id := by
  rw [List.countP_map, List.countP_map]
  exact countP_le_of_imp l (fun x => id (f x)) (fun x => id (g x)) h

/-- C6: for a fixed model, whenever both calls succeed, every sample/constraint
pair marked satisfied under `(rtol, atol)` is also marked satisfied under any
`(rtol', atol')` with `rtol ≤ rtol'` and `atol ≤ atol'`; consequently, for each
fixed constraint the number of samples marked satisfied is non-decreasing. -/
theorem c6_tolerance_monotone (cqm : CQM) (rtol atol rtol' atol' : ℚ)
    (h1 : rtol ≤ rtol') (h2 : atol ≤ atol') (res res' : CQMResult)
    (hr : sampleCQM cqm rtol atol = Except.ok res)
    (hr' : sampleCQM cqm rtol' atol' = Except.ok res') :
    (∀ i c, (res.isSatisfied.getD i []).getD c false = true →
      (res'.isSatisfied.getD i []).getD c false = true) ∧
    (∀ c, (res.isSatisfied.map (fun s => s.getD c false)).countP id ≤
      (res'.isSatisfied.map (fun s => s.getD c false)).countP id) := by
  rcases sampleCQM_ok_cases hr with ⟨hemp, rfl⟩ | ⟨hemp, rows, order, hac, rfl⟩ <;>
    rcases sampleCQM_ok_cases hr' with ⟨hemp', rfl⟩ | ⟨hemp', rows', order', hac', rfl⟩
  · constructor
    · intro i c hx
      simp at hx
    · intro c
      simp
  · exact absurd (hemp.symm.trans hemp') (by decide)
  · exact absurd (hemp'.symm.trans hemp) (by decide)
  · obtain ⟨hrows, horder⟩ : rows = rows' ∧ order = order' := by
      have hp := Except.ok.inj (hac.symm.trans hac')
      exact ⟨congrArg Prod.fst hp, congrArg Prod.snd hp⟩
    subst hrows
    subst horder
    dsimp only
    have hpoint : ∀ i c,
        ((satLists cqm rtol atol rows order).getD i []).getD c false = true →
        ((satLists cqm rtol' atol' rows order).getD i []).getD c false = true := by
      intro i c hx
      have hi : i < rows.length := by
        by_contra hi
        have houter : (satLists cqm rtol atol rows order).getD i [] = ([] : List Bool) :=
          List.getD_eq_default (satLists cqm rtol atol rows order) []
            (by simp only [satLists_length]; omega)
        rw [houter, List.getD_nil] at hx
        cases hx
      rw [satLists_getD _ _ _ _ _ hi] at hx ⊢
      have hc : c < cqm.violations.length := by
        have hlt := getD_false_eq_true_lt hx
        simpa using hlt
      rw [getD_map_lt _ _ hc false (fun _ _ => 0)] at hx ⊢
      rw [decide_eq_true_iff] at hx ⊢
      exact le_trans hx
        (add_le_add h2 (mul_le_mul_of_nonneg_right h1 (abs_nonneg _)))
    refine ⟨hpoint, ?_⟩
    intro c
    rw [satLists, satLists, List.map_map, List.map_map]
    apply countP_map_le_of_imp
    intro x hx hfx
    have hx' : x < rows.length := List.mem_range.mp hx
    have hp := hpoint x c
    rw [satLists_getD _ _ _ _ _ hx', satLists_getD _ _ _ _ _ hx'] at hp
    exact hp hfx

/-- C10: with no declared constraints, every sample's satisfaction list is
empty and its feasibility flag is the vacuous conjunction `true`, for every
tolerance pair; there is one flag per sample. -/
theorem c10_vacuous_feasibility (cqm : CQM) (h0 : cqm.violations = [])
    (hv : cqm.vars ≠ []) (rtol atol : ℚ) (res : CQMResult)
    (h : sampleCQM cqm rtol atol = Except.ok res) :
    (∀ s ∈ res.isSatisfied, s = []) ∧ (∀ b ∈ res.isFeasible, b = true) ∧
    res.isFeasible.length = res.samples.length := by
  rcases sampleCQM_ok_cases h with ⟨hemp, rfl⟩ | ⟨hemp, rows, order, hac, rfl⟩
  · exact absurd (List.isEmpty_iff.mp hemp) hv
  · dsimp only
    refine ⟨?_, ?_, ?_⟩
    · intro s hs
      rw [satLists] at hs
      rcases List.mem_map.mp hs with ⟨i, _, rfl⟩
      simp [h0]
    · intro b hb
      rcases List.mem_map.mp hb with ⟨s, hs, rfl⟩
      rw [satLists] at hs
      rcases List.mem_map.mp hs with ⟨i, _, rfl⟩
      simp [h0]
    · simp [satLists_length]

theorem iteratorByVartype_ok_of_supported {cqm : CQM} {v : ℕ}
    (h : supportedVt (cqm.vartype v)) :
    ∃ c, iteratorByVartype cqm v = Except.ok c := by
  rcases h with h | h | h <;> exact ⟨_, by rw [iteratorByVartype, h]⟩

theorem iteratorByVartype_error_of_unsupported {cqm : CQM} {v : ℕ}
    (h : ¬ supportedVt (cqm.vartype v)) :
    iteratorByVartype cqm v = Except.error supportedMsg := by
  rw [iteratorByVartype]
  rcases hvt : cqm.vartype v with _ | _ | _ | _
  · exact absurd (Or.inr (Or.inl hvt)) h
  · exact absurd (Or.inl hvt) h
  · exact absurd (Or.inr (Or.inr hvt)) h
  · rfl

theorem iteratorByVartype_error_msg {cqm : CQM} {v : ℕ} {e : String}
    (h : iteratorByVartype cqm v = Except.error e) : e = supportedMsg := by
  rw [iteratorByVartype] at h
  rcases hvt : cqm.vartype v with _ | _ | _ | _ <;> rw [hvt] at h <;>
    simp at h
  exact h.symm

theorem iterFreeCases_ok {cqm : CQM} : ∀ l : List ℕ,
    (∀ v ∈ l, supportedVt (cqm.vartype v)) →
    ∃ cases0, iterFreeCases cqm l = Except.ok cases0 ∧
      List.Forall₂ (fun c v => iteratorByVartype cqm v = Except.ok c) cases0 l
  | [], _ => ⟨[], rfl, List.Forall₂.nil⟩
  | v :: vs, h => by
    obtain ⟨c, hc⟩ :=
      iteratorByVartype_ok_of_supported (h v (List.mem_cons_self v vs))
    obtain ⟨cs, hcs, hf⟩ :=
      iterFreeCases_ok vs (fun x hx => h x (List.mem_cons_of_mem v hx))
    exact ⟨c :: cs, by rw [iterFreeCases, hc, hcs], List.Forall₂.cons hc hf⟩

theorem iterFreeCases_error {cqm : CQM} : ∀ (l : List ℕ) (v : ℕ), v ∈ l →
    ¬ supportedVt (cqm.vartype v) →
    iterFreeCases cqm l = Except.error supportedMsg
  | [], v, hv, _ => absurd hv (List.not_mem_nil v)
  | w :: vs, v, hv, hns => by
    rcases List.mem_cons.mp hv with rfl | hv'
    · rw [iterFreeCases, iteratorByVartype_error_of_unsupported hns]
    · rcases hit : iteratorByVartype cqm w with e | c
      · rw [iterFreeCases, hit, iteratorByVartype_error_msg hit]
      · rw [iterFreeCases, hit, iterFreeCases_error vs v hv' hns]

/-- C7: if some free-form variable of the model has a declared vartype other
than Binary, Spin or Integer, `sample_cqm` raises the `ValueError` of
`_iterator_by_vartype` (no result is produced); conversely, when every
free-form variable is Binary, Spin or Integer, the call never takes that error
branch and returns a result. -/
theorem c7_unsupported_domain (cqm : CQM) (rtol atol : ℚ) :
    ((∃ v ∈ freeVars cqm, ¬ supportedVt (cqm.vartype v)) →
      sampleCQM cqm rtol atol = Except.error supportedMsg) ∧
    ((∀ v ∈ freeVars cqm, supportedVt (cqm.vartype v)) →
      ∃ res, sampleCQM cqm rtol atol = Except.ok res) := by
  constructor
  · rintro ⟨v, hv, hns⟩
    have hvv : v ∈ cqm.vars := List.mem_of_mem_filter hv
    have hne : ¬ (cqm.vars.isEmpty = true) := by
      rcases hvars : cqm.vars with _ | ⟨a, l⟩
      · rw [hvars] at hvv
        cases hvv
      · simp
    rw [sampleCQM, if_neg hne, allCasesCQM,
      iterFreeCases_error (freeVars cqm) v hv hns]
  · intro hs
    by_cases hemp : cqm.vars.isEmpty = true
    · exact ⟨_, by rw [sampleCQM, if_pos hemp]⟩
    · obtain ⟨cases0, hc, _⟩ := iterFreeCases_ok (freeVars cqm) hs
      have hac : ∃ pr, allCasesCQM cqm = Except.ok pr :=
        ⟨_, by rw [allCasesCQM, hc]⟩
      obtain ⟨⟨rows, order⟩, hpr⟩ := hac
      exact ⟨_, by rw [sampleCQM, if_neg hemp, hpr]⟩

/-- The docstring example CQM: binary `x ↦ 0`, `y ↦ 1`, `z ↦ 2`, objective
`x*y + 2*y*z`, one constraint `x*y == 1` whose violation magnitude is
`|x*y - 1|`. -/
def cqmW : CQM :=
  ⟨[0, 1, 2], [], fun _ => Vartype.BINARY, fun _ => 0, fun _ => 0,
   [fun r _ => |((r.getD 0 0 * r.getD 1 0 : ℤ) : ℚ) - 1|],
   fun r _ => ((r.getD 0 0 * r.getD 1 0 : ℤ) : ℚ)
     + 2 * ((r.getD 1 0 * r.getD 2 0 : ℤ) : ℚ)⟩

/-- The 8 rows `_all_cases_cqm` enumerates for `cqmW`. -/
def rowsW : List (List ℤ) :=
  [[0, 0, 0], [0, 1, 0], [1, 0, 0], [1, 1, 0],
   [0, 0, 1], [0, 1, 1], [1, 0, 1], [1, 1, 1]]

theorem allCasesCQM_cqmW : allCasesCQM cqmW = Except.ok (rowsW, [0, 1, 2]) := by
  decide

/-- The result `sample_cqm(cqmW, rtol, atol)` assembles. -/
def resW (rtol atol : ℚ) : CQMResult :=
  ⟨rowsW, [0, 1, 2], cqmEnergies cqmW rowsW [0, 1, 2],
   satLists cqmW rtol atol rowsW [0, 1, 2],
   (satLists cqmW rtol atol rowsW [0, 1, 2]).map (fun s => s.all id)⟩

theorem sampleCQM_cqmW (rtol atol : ℚ) :
    sampleCQM cqmW rtol atol = Except.ok (resW rtol atol) := by
  rw [sampleCQM, if_neg (by decide), allCasesCQM_cqmW]
  rfl

/-- Witness for C2 on the docstring model at sample 0, constraint 0,
`rtol = 0`, `atol = 1`. -/
theorem c2_witness :
    (resW 0 1).energies.getD 0 0
      = cqmW.objEnergy ((resW 0 1).samples.getD 0 []) (resW 0 1).vars ∧
    (((resW 0 1).isSatisfied.getD 0 []).getD 0 false = true ↔
      (cqmW.violations.getD 0 (fun _ _ => 0)) ((resW 0 1).samples.getD 0 [])
        (resW 0 1).vars ≤ 1 + 0 * |(resW 0 1).energies.getD 0 0|) ∧
    ((resW 0 1).isFeasible.getD 0 false = true ↔
      ∀ g, g < cqmW.violations.length →
        ((resW 0 1).isSatisfied.getD 0 []).getD g false = true) :=
  c2_satisfaction_rule cqmW 0 1 (resW 0 1) (sampleCQM_cqmW 0 1) 0 0
    (by decide) (by decide)

/-- Witness for C6 on the docstring model, `(0, 0) ≤ (1, 1)`. -/
theorem c6_witness :
    (∀ i c, ((resW 0 0).isSatisfied.getD i []).getD c false = true →
      ((resW 1 1).isSatisfied.getD i []).getD c false = true) ∧
    (∀ c, ((resW 0 0).isSatisfied.map (fun s => s.getD c false)).countP id ≤
      ((resW 1 1).isSatisfied.map (fun s => s.getD c false)).countP id) :=
  c6_tolerance_monotone cqmW 0 0 1 1 (by norm_num) (by norm_num)
    (resW 0 0) (resW 1 1) (sampleCQM_cqmW 0 0) (sampleCQM_cqmW 1 1)

/-- A one-binary-variable CQM with no constraints. -/
def cqmNC : CQM :=
  ⟨[0], [], fun _ => Vartype.BINARY, fun _ => 0, fun _ => 0, [], fun _ _ => 0⟩

/-- The rows `_all_cases_cqm` enumerates for `cqmNC`. -/
def rowsNC : List (List ℤ) := [[0], [1]]

theorem allCasesCQM_cqmNC : allCasesCQM cqmNC = Except.ok (rowsNC, [0]) := by
  decide

/-- The result `sample_cqm(cqmNC, rtol, atol)` assembles. -/
def resNC (rtol atol : ℚ) : CQMResult :=
  ⟨rowsNC, [0], cqmEnergies cqmNC rowsNC [0],
   satLists cqmNC rtol atol rowsNC [0],
   (satLists cqmNC rtol atol rowsNC [0]).map (fun s => s.all id)⟩

theorem sampleCQM_cqmNC (rtol atol : ℚ) :
    sampleCQM cqmNC rtol atol = Except.ok (resNC rtol atol) := by
  rw [sampleCQM, if_neg (by decide), allCasesCQM_cqmNC]
  rfl

/-- Witness for C10 on the constraint-free one-variable model. -/
theorem c10_witness :
    (∀ s ∈ (resNC 0 0).isSatisfied, s = []) ∧
    (∀ b ∈ (resNC 0 0).isFeasible, b = true) ∧
    (resNC 0 0).isFeasible.length = (resNC 0 0).samples.length :=
  c10_vacuous_feasibility cqmNC rfl (by decide) 0 0 (resNC 0 0)
    (sampleCQM_cqmNC 0 0)

/-- A CQM whose single free-form variable has an unsupported vartype. -/
def cqmBad : CQM :=
  ⟨[0], [], fun _ => Vartype.REAL, fun _ => 0, fun _ => 0, [], fun _ _ => 0⟩

/-- Witness for C7: the unsupported model errors with the `ValueError`
message, the supported model returns a result. -/
theorem c7_witness :
    sampleCQM cqmBad 0 0 = Except.error supportedMsg ∧
    ∃ res, sampleCQM cqmNC 0 0 = Except.ok res :=
  ⟨(c7_unsupported_domain cqmBad 0 0).1 ⟨0, by decide, by decide⟩,
   (c7_unsupported_domain cqmNC 0 0).2 (by decide)⟩

theorem forall₂_mem_ranges {t ks : List ℕ} :
    List.Forall₂ (· ∈ ·) t (ks.map List.range)
      ↔ List.Forall₂ (fun c k => c < k) t ks := by
  rw [List.forall₂_map_right_iff]
  constructor
  · exact fun h => h.imp (fun a b hab => List.mem_range.mp hab)
  · exact fun h => h.imp (fun a b hab => List.mem_range.mpr hab)

/-- C5 (amended with `dqm.vars ≠ []`): for a discrete model with at least one
variable, all of whose case counts are positive, `_all_cases_dqm` returns a
matrix with exactly `∏ k_v` rows paired with the variable list; the rows are
pairwise distinct, and the rows are exactly the tuples whose entry for the
`j`-th variable lies in `{0, …, k_j - 1}` (so every tuple of the product space
appears). -/
theorem c5_dqm_complete (dqm : DQM) (hne : dqm.vars ≠ [])
    (hpos : ∀ v ∈ dqm.vars, 0 < dqm.numCases v) :
    ∃ rows, allCasesDQM dqm = some (rows, dqm.vars) ∧
      rows.length = (dqm.vars.map dqm.numCases).prod ∧
      rows.Nodup ∧
      ∀ row, row ∈ rows ↔
        List.Forall₂ (fun c k => c < k) row (dqm.vars.map dqm.numCases) := by
  refine ⟨meshRows (dqm.vars.map (fun v => List.range (dqm.numCases v))),
    ?_, ?_, ?_, ?_⟩
  · rw [allCasesDQM, if_neg (by simp [hne])]
  · rw [length_meshRows, List.map_map]
    congr 1
    apply List.map_congr_left
    intro v _
    simp
  · refine nodup_meshRows _ ?_
    intro l hl
    rcases List.mem_map.mp hl with ⟨v, _, rfl⟩
    exact List.nodup_range _
  · intro row
    rw [mem_meshRows]
    have hmm : dqm.vars.map (fun v => List.range (dqm.numCases v))
        = (dqm.vars.map dqm.numCases).map List.range := by
      rw [List.map_map]
      rfl
    rw [hmm, forall₂_mem_ranges]

/-- Counterexample to C5 as stated: on the zero-variable discrete model the
claimed row count is `∏ (empty) = 1`, but `_all_cases_dqm` produces no matrix
at all — numpy raises `ValueError` on `reshape(-1, 0)` of a size-0 array
(modelled as `none`); `sample_dqm` short-circuits before ever calling it. -/
theorem c5_counterexample :
    allCasesDQM dqmEmpty = none ∧ (dqmEmpty.vars.map dqmEmpty.numCases).prod = 1 :=
  ⟨rfl, rfl⟩

/-- A two-variable discrete model with case counts 3 and 2. -/
def dqmW : DQM := ⟨[0, 1], fun v => if v = 0 then 3 else 2, fun _ => 0⟩

/-- Witness for C5 on the 3-case × 2-case model. -/
theorem c5_witness :
    ∃ rows, allCasesDQM dqmW = some (rows, dqmW.vars) ∧
      rows.length = (dqmW.vars.map dqmW.numCases).prod ∧
      rows.Nodup ∧
      ∀ row, row ∈ rows ↔
        List.Forall₂ (fun c k => c < k) row (dqmW.vars.map dqmW.numCases) :=
  c5_dqm_complete dqmW (by decide) (by decide)

theorem prod_pos_of_pos : ∀ l : List ℕ, (∀ k ∈ l, 0 < k) → 0 < l.prod
  | [], _ => by simp
  | k :: l, h => by
    rw [List.prod_cons]
    exact Nat.mul_pos (h k (List.mem_cons_self k l))
      (prod_pos_of_pos l (fun x hx => h x (List.mem_cons_of_mem k hx)))

theorem forall₂_exists_right {α β : Type} {R : α → β → Prop} :
    ∀ {l1 : List α} {l2 : List β}, List.Forall₂ R l1 l2 →
      ∀ a ∈ l1, ∃ b ∈ l2, R a b := by
  intro l1 l2 h
  induction h with
  | nil =>
    intro a ha
    cases ha
  | cons hR hF ih =>
    intro a ha
    rcases List.mem_cons.mp ha with rfl | ha'
    · exact ⟨_, List.mem_cons_self _ _, hR⟩
    · obtain ⟨b, hb, hRb⟩ := ih a ha'
      exact ⟨b, List.mem_cons_of_mem _ hb, hRb⟩

theorem forall₂_getD {α β : Type} {R : α → β → Prop} :
    ∀ {l1 : List α} {l2 : List β}, List.Forall₂ R l1 l2 →
      ∀ (i : ℕ) (d1 : α) (d2 : β), i < l1.length → R (l1.getD i d1) (l2.getD i d2) := by
  intro l1 l2 h
  induction h with
  | nil =>
    intro i d1 d2 hi
    simp at hi
  | cons hR hF ih =>
    intro i d1 d2 hi
    cases i with
    | zero => simpa using hR
    | succ i' =>
      simp only [List.getD_cons_succ]
      exact ih i' d1 d2 (by simpa using hi)

theorem intRange_length (lo hi : ℤ) : (intRange lo hi).length = (hi + 1 - lo).toNat := by
  rw [intRange, List.length_map, List.length_range]

theorem iterator_ok_ne_nil {cqm : CQM} {v : ℕ} {c : List ℤ}
    (hint : cqm.vartype v = Vartype.INTEGER → cqm.lowerBound v ≤ cqm.upperBound v)
    (h : iteratorByVartype cqm v = Except.ok c) : c ≠ [] := by
  rw [iteratorByVartype] at h
  rcases hvt : cqm.vartype v with _ | _ | _ | _ <;> rw [hvt] at h
  · rw [← Except.ok.inj h]
    simp
  · rw [← Except.ok.inj h]
    simp
  · have hle := hint hvt
    rw [← Except.ok.inj h]
    intro hnil
    have hlen := congrArg List.length hnil
    rw [intRange_length] at hlen
    simp at hlen
    omega
  · cases h

theorem length_oneHot (k j : ℕ) : (oneHot k j).length = k := by
  simp [oneHot]

theorem oneHotConcat_cons (d : ℕ) (ds : List ℕ) (j : ℕ) (idx : List ℕ) :
    oneHotConcat (d :: ds) (j :: idx) = oneHot d j ++ oneHotConcat ds idx := by
  simp [oneHotConcat]

theorem oneHotConcat_length : ∀ (ds idx : List ℕ), idx.length = ds.length →
    (oneHotConcat ds idx).length = ds.sum
  | [], idx, h => by
    obtain rfl : idx = [] := List.eq_nil_of_length_eq_zero (by simpa using h)
    rfl
  | d :: ds, idx, h => by
    obtain ⟨j, idx', rfl⟩ : ∃ j idx', idx = j :: idx' := by
      cases idx with
      | nil => simp at h
      | cons a l => exact ⟨a, l, rfl⟩
    rw [oneHotConcat_cons, List.length_append, length_oneHot,
      oneHotConcat_length ds idx' (by simpa using h), List.sum_cons]

/-- Group `g`'s segment of the concatenated one-hot vectors is exactly the
one-hot vector chosen for group `g`. -/
theorem oneHotConcat_segment : ∀ (ds idx : List ℕ) (g : ℕ),
    idx.length = ds.length → g < ds.length →
    ((oneHotConcat ds idx).drop ((ds.take g).sum)).take (ds.getD g 0)
      = oneHot (ds.getD g 0) (idx.getD g 0)
  | [], _, g, _, hg => by simp at hg
  | d :: ds, idx, g, hlen, hg => by
    obtain ⟨j, idx', rfl⟩ : ∃ j idx', idx = j :: idx' := by
      cases idx with
      | nil => simp at hlen
      | cons a l => exact ⟨a, l, rfl⟩
    cases g with
    | zero =>
      rw [oneHotConcat_cons]
      simp only [List.take_zero, List.sum_nil, List.drop_zero, List.getD_cons_zero]
      rw [List.take_left' (length_oneHot d j)]
    | succ g' =>
      rw [oneHotConcat_cons]
      simp only [List.take_succ_cons, List.sum_cons, List.getD_cons_succ]
      rw [← List.drop_drop, List.drop_left' (length_oneHot d j)]
      exact oneHotConcat_segment ds idx' g' (by simpa using hlen) (by simpa using hg)

theorem take_sum_add_getD_le : ∀ (ds : List ℕ) (g : ℕ), g < ds.length →
    (ds.take g).sum + ds.getD g 0 ≤ ds.sum
  | [], g, hg => by simp at hg
  | d :: ds, 0, _ => by
    simp only [List.take_zero, List.sum_nil, List.getD_cons_zero, List.sum_cons]
    omega
  | d :: ds, g + 1, hg => by
    simp only [List.take_succ_cons, List.sum_cons, List.getD_cons_succ]
    have hrec := take_sum_add_getD_le ds g (by simpa using hg)
    omega

theorem drop_take_append (l r : List ℤ) (s k : ℕ) (h : s + k ≤ l.length) :
    ((l ++ r).drop s).take k = (l.drop s).take k := by
  rw [List.drop_append_eq_append_drop, show s - l.length = 0 by omega,
    List.drop_zero, List.take_append_eq_append_take,
    show k - (l.drop s).length = 0 by simp; omega, List.take_zero,
    List.append_nil]

theorem length_flatMap_const {α β : Type} (l : List α) (f : α → List β) (c : ℕ)
    (h : ∀ x ∈ l, (f x).length = c) : (l.flatMap f).length = l.length * c := by
  rw [List.flatMap_def, List.length_flatten, List.map_map,
    show List.map (List.length ∘ f) l = List.map (fun _ => c) l from
      List.map_congr_left (fun x hx => h x hx),
    sum_map_const]

theorem flatMap_pure_map {α β : Type} (l : List α) (f : α → β) :
    (l.flatMap fun x => [f x]) = l.map f := by
  induction l with
  | nil => rfl
  | cons a l ih => simp [List.flatMap_cons, ih]

theorem allCasesCQM_eq_ok (cqm : CQM) (cases0 : List (List ℤ))
    (h : iterFreeCases cqm (freeVars cqm) = Except.ok cases0) :
    allCasesCQM cqm = Except.ok
      (if (cqmCombinations (cqm.discrete.map List.length)
            (cqmC1 cqm cases0)).isEmpty
        then cqmC1 cqm cases0
        else cqmCombinations (cqm.discrete.map List.length) (cqmC1 cqm cases0),
       dVars cqm ++ freeVars cqm) := by
  rw [allCasesCQM, h]

theorem oneHot_segment_of_mem_cart {ds idx : List ℕ}
    (hidx : idx ∈ cartProd (ds.map List.range)) (g : ℕ) (hg : g < ds.length) :
    idx.getD g 0 < ds.getD g 0 ∧
    ((oneHotConcat ds idx).drop ((ds.take g).sum)).take (ds.getD g 0)
      = oneHot (ds.getD g 0) (idx.getD g 0) := by
  have hf := forall₂_mem_ranges.mp ((mem_cartProd _ _).mp hidx)
  have hlen : idx.length = ds.length := hf.length_eq
  exact ⟨forall₂_getD hf g 0 0 (by omega),
    oneHotConcat_segment ds idx g hlen hg⟩

theorem map_range_map_length (ds : List ℕ) :
    (ds.map List.range).map List.length = ds := by
  rw [List.map_map,
    show (List.length ∘ List.range) = id from funext (fun k => List.length_range k),
    List.map_id]

/-- C1 (amended to require at least one variable or at least one discrete
group — the all-empty model yields an empty matrix where the formula asks for
one row, and `sample_cqm` short-circuits it): for a constrained model whose
discrete one-hot groups are nonempty and whose free-form variables all have
supported vartypes with sane integer bounds, `_all_cases_cqm` returns, with
variable order `d_vars ++ var_list`, a matrix with exactly
`(∏ k_g) * (∏ d_j)` rows (`k_g` the group sizes, `d_j` the free-form domain
sizes); the group-`g` segment of every row is a valid one-hot vector of
length `k_g`; with no discrete groups the result is exactly the free-form
meshgrid product, and with no free-form variables it is exactly the `∏ k_g`
concatenated one-hot rows (the degenerate cross join is not dropped). -/
theorem c1_mixed_domain (cqm : CQM)
    (hne : ¬ (cqm.vars = [] ∧ cqm.discrete = []))
    (hgrp : ∀ g ∈ cqm.discrete, g ≠ [])
    (hsupp : ∀ v ∈ freeVars cqm, supportedVt (cqm.vartype v))
    (hint : ∀ v ∈ freeVars cqm, cqm.vartype v = Vartype.INTEGER →
      cqm.lowerBound v ≤ cqm.upperBound v) :
    ∃ rows cases0,
      iterFreeCases cqm (freeVars cqm) = Except.ok cases0 ∧
      allCasesCQM cqm = Except.ok (rows, dVars cqm ++ freeVars cqm) ∧
      rows.length
        = (cqm.discrete.map List.length).prod * (cases0.map List.length).prod ∧
      (∀ row ∈ rows, ∀ g, g < cqm.discrete.length →
        ∃ j, j < (cqm.discrete.map List.length).getD g 0 ∧
          (row.drop (((cqm.discrete.map List.length).take g).sum)).take
              ((cqm.discrete.map List.length).getD g 0)
            = oneHot ((cqm.discrete.map List.length).getD g 0) j) ∧
      (cqm.discrete = [] → rows = meshRows cases0) ∧
      (freeVars cqm = [] →
        rows = (cartProd ((cqm.discrete.map List.length).map List.range)).map
          (oneHotConcat (cqm.discrete.map List.length))) := by
  obtain ⟨cases0, hiter, hfa⟩ := iterFreeCases_ok (freeVars cqm) hsupp
  have hlen0 : cases0.length = (freeVars cqm).length := hfa.length_eq
  have hdom_ne : ∀ c ∈ cases0, c ≠ [] := by
    intro c hc
    obtain ⟨v, hv, hok⟩ := forall₂_exists_right hfa c hc
    exact iterator_ok_ne_nil (hint v hv) hok
  have hall := allCasesCQM_eq_ok cqm cases0 hiter
  by_cases hd : cqm.discrete = []
  · -- no discrete groups: the loop appends nothing and the result is `c1`
    have hvars_ne : cqm.vars ≠ [] := fun hv => hne ⟨hv, hd⟩
    have hfv_eq : freeVars cqm = cqm.vars := by
      simp [freeVars, dVars, hd]
    have hfv_ne : freeVars cqm ≠ [] := by
      rw [hfv_eq]
      exact hvars_ne
    have hds : cqm.discrete.map List.length = [] := by rw [hd]; rfl
    have hc1_eq : cqmC1 cqm cases0 = meshRows cases0 := by
      rw [cqmC1, if_neg (by rw [List.isEmpty_iff]; exact hfv_ne)]
    have hcombs : cqmCombinations (cqm.discrete.map List.length)
        (cqmC1 cqm cases0) = [] := by
      rw [hds]
      rfl
    rw [hcombs, hc1_eq] at hall
    refine ⟨meshRows cases0, cases0, hiter, by simpa using hall, ?_, ?_, ?_, ?_⟩
    · rw [length_meshRows, hds]
      simp
    · intro row _ g hg
      rw [hd] at hg
      simp at hg
    · intro _
      rfl
    · intro hv
      exact absurd hv hfv_ne
  · -- at least one discrete group
    have hds_ne : cqm.discrete.map List.length ≠ [] := by
      simpa using hd
    have hds_len : (cqm.discrete.map List.length).length = cqm.discrete.length :=
      List.length_map _ _
    have hpos : ∀ k ∈ cqm.discrete.map List.length, 0 < k := by
      intro k hk
      rcases List.mem_map.mp hk with ⟨g, hg, rfl⟩
      exact List.length_pos.mpr (hgrp g hg)
    have hcart_len : (cartProd ((cqm.discrete.map List.length).map List.range)).length
        = (cqm.discrete.map List.length).prod := by
      rw [length_cartProd, map_range_map_length]
    have hcart_pos :
        0 < (cartProd ((cqm.discrete.map List.length).map List.range)).length := by
      rw [hcart_len]
      exact prod_pos_of_pos _ hpos
    by_cases hfv : freeVars cqm = []
    · -- no free-form variables: the bare one-hot rows survive
      have hcases : cases0 = [] :=
        List.eq_nil_of_length_eq_zero (by rw [hlen0, hfv]; rfl)
      have hc1_nil : cqmC1 cqm cases0 = [] := by
        rw [cqmC1, if_pos (by rw [hfv]; rfl)]
      have hcombs : cqmCombinations (cqm.discrete.map List.length)
          (cqmC1 cqm cases0)
          = (cartProd ((cqm.discrete.map List.length).map List.range)).map
            (oneHotConcat (cqm.discrete.map List.length)) := by
        rw [hc1_nil, cqmCombinations,
          if_neg (by rw [List.isEmpty_iff]; exact hds_ne),
          show (fun idx => if ([] : List (List ℤ)).length ≠ 0
              then ([] : List (List ℤ)).map
                (fun row => oneHotConcat (cqm.discrete.map List.length) idx ++ row)
              else [oneHotConcat (cqm.discrete.map List.length) idx])
            = fun idx => [oneHotConcat (cqm.discrete.map List.length) idx] from
            funext (fun idx => by rw [if_neg (by simp)])]
        exact flatMap_pure_map _ _
      have hcombs_ne : (cartProd ((cqm.discrete.map List.length).map List.range)).map
          (oneHotConcat (cqm.discrete.map List.length)) ≠ [] := by
        apply List.length_pos.mp
        rw [List.length_map]
        exact hcart_pos
      rw [hcombs, if_neg (by rw [List.isEmpty_iff]; exact hcombs_ne)] at hall
      refine ⟨_, cases0, hiter, hall, ?_, ?_, ?_, ?_⟩
      · rw [List.length_map, hcart_len, hcases]
        simp
      · intro row hrow g hg
        rcases List.mem_map.mp hrow with ⟨idx, hidx, rfl⟩
        obtain ⟨hj, hseg⟩ := oneHot_segment_of_mem_cart hidx g (by omega)
        exact ⟨idx.getD g 0, hj, hseg⟩
      · intro hdd
        exact absurd hdd hd
      · intro _
        rfl
    · -- both discrete groups and free-form variables
      have hc1_eq : cqmC1 cqm cases0 = meshRows cases0 := by
        rw [cqmC1, if_neg (by rw [List.isEmpty_iff]; exact hfv)]
      have hc1_len : (cqmC1 cqm cases0).length = (cases0.map List.length).prod := by
        rw [hc1_eq, length_meshRows]
      have hc1_pos : 0 < (cqmC1 cqm cases0).length := by
        rw [hc1_len]
        apply prod_pos_of_pos
        intro k hk
        rcases List.mem_map.mp hk with ⟨c, hc, rfl⟩
        exact List.length_pos.mpr (hdom_ne c hc)
      have hcombs : cqmCombinations (cqm.discrete.map List.length)
          (cqmC1 cqm cases0)
          = (cartProd ((cqm.discrete.map List.length).map List.range)).flatMap
            (fun idx => (cqmC1 cqm cases0).map
              (fun row => oneHotConcat (cqm.discrete.map List.length) idx ++ row)) := by
        rw [cqmCombinations, if_neg (by rw [List.isEmpty_iff]; exact hds_ne),
          show (fun idx => if (cqmC1 cqm cases0).length ≠ 0
              then (cqmC1 cqm cases0).map
                (fun row => oneHotConcat (cqm.discrete.map List.length) idx ++ row)
              else [oneHotConcat (cqm.discrete.map List.length) idx])
            = fun idx => (cqmC1 cqm cases0).map
                (fun row => oneHotConcat (cqm.discrete.map List.length) idx ++ row) from
            funext (fun idx => by rw [if_pos (by omega)])]
      have hcombs_len : (cqmCombinations (cqm.discrete.map List.length)
          (cqmC1 cqm cases0)).length
          = (cqm.discrete.map List.length).prod * (cases0.map List.length).prod := by
        rw [hcombs, length_flatMap_const _ _ ((cqmC1 cqm cases0).length)
          (fun idx _ => List.length_map _ _), hcart_len, hc1_len]
      have hcombs_ne : cqmCombinations (cqm.discrete.map List.length)
          (cqmC1 cqm cases0) ≠ [] := by
        apply List.length_pos.mp
        rw [hcombs_len]
        exact Nat.mul_pos (prod_pos_of_pos _ hpos) (by rw [← hc1_len]; exact hc1_pos)
      rw [if_neg (by rw [List.isEmpty_iff]; exact hcombs_ne)] at hall
      refine ⟨_, cases0, hiter, hall, hcombs_len, ?_, ?_, ?_⟩
      · intro row hrow g hg
        rw [hcombs] at hrow
        rcases List.mem_flatMap.mp hrow with ⟨idx, hidx, hrow2⟩
        rcases List.mem_map.mp hrow2 with ⟨r, _, rfl⟩
        obtain ⟨hj, hseg⟩ := oneHot_segment_of_mem_cart hidx g (by omega)
        refine ⟨idx.getD g 0, hj, ?_⟩
        rw [drop_take_append _ _ _ _ ?_, hseg]
        have hidx_len : idx.length = (cqm.discrete.map List.length).length :=
          (forall₂_mem_ranges.mp ((mem_cartProd _ _).mp hidx)).length_eq
        rw [oneHotConcat_length _ _ hidx_len]
        exact take_sum_add_getD_le _ g (by omega)
      · intro hdd
        exact absurd hdd hd
      · intro hvv
        exact absurd hvv hfv

/-- Counterexample to C1 as stated: on the model with zero variables and zero
discrete groups the claimed row count is `∏ (empty) × ∏ (empty) = 1` (the
free-form Cartesian product of no variables is a single empty row), but
`_all_cases_cqm` returns an empty matrix with zero rows; `sample_cqm`
short-circuits this model before the call. -/
theorem c1_counterexample :
    iterFreeCases cqmEmpty (freeVars cqmEmpty) = Except.ok [] ∧
    allCasesCQM cqmEmpty = Except.ok ([], []) ∧
    (cqmEmpty.discrete.map List.length).prod
      * (([] : List (List ℤ)).map List.length).prod = 1 ∧
    ([] : List (List ℤ)).length ≠ 1 :=
  ⟨rfl, rfl, rfl, by decide⟩

/-- A mixed model: one discrete group `{0, 1}` and one free spin variable. -/
def cqmD : CQM :=
  ⟨[0, 1, 2], [[0, 1]],
   fun v => if v = 2 then Vartype.SPIN else Vartype.BINARY,
   fun _ => 0, fun _ => 0, [], fun _ _ => 0⟩

/-- Witness for C1 on the mixed model `cqmD`. -/
theorem c1_witness :
    ∃ rows cases0,
      iterFreeCases cqmD (freeVars cqmD) = Except.ok cases0 ∧
      allCasesCQM cqmD = Except.ok (rows, dVars cqmD ++ freeVars cqmD) ∧
      rows.length
        = (cqmD.discrete.map List.length).prod * (cases0.map List.length).prod ∧
      (∀ row ∈ rows, ∀ g, g < cqmD.discrete.length →
        ∃ j, j < (cqmD.discrete.map List.length).getD g 0 ∧
          (row.drop (((cqmD.discrete.map List.length).take g).sum)).take
              ((cqmD.discrete.map List.length).getD g 0)
            = oneHot ((cqmD.discrete.map List.length).getD g 0) j) ∧
      (cqmD.discrete = [] → rows = meshRows cases0) ∧
      (freeVars cqmD = [] →
        rows = (cartProd ((cqmD.discrete.map List.length).map List.range)).map
          (oneHotConcat (cqmD.discrete.map List.length))) :=
  c1_mixed_domain cqmD (by decide) (by decide) (by decide) (by decide)

end DimodExact
